import Mathlib

/-!
# Verification of the LazyTower append-only authenticated data structure

Shallow embedding of the `lazytower-rs` crate: the `LazyTower` structure with
its append/overflow cascade, provenance ledger (`OverflowRecord`s and
`NodeId`s), root computation, membership-proof generation and verification,
together with proofs and refutations of the specification's claims.

Byte strings (`AsRef<[u8]>` values, digest outputs) are modelled as `List Nat`.
The `Digest` trait's two operations are passed explicitly as functions
`dItem : Bytes → Bytes` and `dItems : List Bytes → Bytes`; the generic Rust
functions can only observe their arguments through `as_ref`, so a digest is a
function of the byte strings alone.
-/

set_option maxRecDepth 10000

/-- Byte strings (`Vec<u8>` / `&[u8]` / digest outputs). -/
abbrev Bytes := List Nat

/-- ASCII bytes of a string literal, for concrete test inputs. -/
def strBytes (s : String) : Bytes := s.toList.map Char.toNat

/-- `mock::MockDigest::digest_item`: `b"digest(" ++ item ++ b")"`. -/
def mock_digest_item (item : Bytes) : Bytes :=
  strBytes "digest(" ++ item ++ strBytes ")"

/-- `mock::MockDigest::digest_items`: `b"digest_items[" ++ comma-separated items ++ b"]"`. -/
def mock_digest_items (items : List Bytes) : Bytes :=
  strBytes "digest_items[" ++ List.intercalate (strBytes ",") items ++ strBytes "]"

/-- `sha256::Sha256Digest::digest_item`: hash of the item's bytes.  The SHA-256
compression itself lives in the external `sha2` crate; it enters only as an
abstract function `H` over the accumulated input bytes. -/
def sha256_digest_item (H : Bytes → Bytes) (item : Bytes) : Bytes := H item

/-- `sha256::Sha256Digest::digest_items`: the hasher is updated with each item
in order and finalized once, i.e. the hash of the concatenation. -/
def sha256_digest_items (H : Bytes → Bytes) (items : List Bytes) : Bytes :=
  H items.flatten

/-- `TowerNode<T, D>`: either a raw item or a digest from a lower level. -/
inductive TowerNode where
  | item (bs : Bytes)
  | digest (bs : Bytes)
deriving DecidableEq

/-- The `AsRef<[u8]>` view of a `TowerNode`. -/
def TowerNode.bytes : TowerNode → Bytes
  | .item bs => bs
  | .digest bs => bs

/-- `NodeId`: provenance identity, `Item(index)` or `Digest(children)`. -/
inductive NodeId where
  | item (idx : Nat)
  | digest (children : List NodeId)

mutual

/-- Structural equality test for `NodeId` (the derived `PartialEq` in Rust). -/
def NodeId.beq : NodeId → NodeId → Bool
  | .item i, .item j => i == j
  | .digest xs, .digest ys => NodeId.beqList xs ys
  | _, _ => false

/-- Structural equality test for lists of `NodeId`s. -/
def NodeId.beqList : List NodeId → List NodeId → Bool
  | [], [] => true
  | a :: as, b :: bs => NodeId.beq a b && NodeId.beqList as bs
  | _, _ => false

end

instance : BEq NodeId := ⟨NodeId.beq⟩

/-- `ItemPosition`: where an item (or its covering digest) currently lives. -/
structure ItemPosition where
  level : Nat
  index : Nat
deriving DecidableEq

/-- `LazyTowerError`. -/
inductive LazyTowerError where
  | invalidWidth (width : Nat)
  | invalidIndex (index : Nat) (max : Nat)
  | proofGenerationNotImplemented
deriving DecidableEq

/-- `OverflowRecord<D>`: one immutable ledger entry per aggregation event. -/
structure OverflowRecord where
  level : Nat
  node_ids : List NodeId
  result_digest : Bytes

/-- `PathElement<D>`: digest siblings or raw (byte) siblings, with the proved
node's position in its group. -/
inductive PathElement where
  | siblings (position : Nat) (sibs : List Bytes)
  | rawSiblings (position : Nat) (sibs : List Bytes)
deriving DecidableEq

/-- `ProofPath<D>`: path elements from bottom to top. -/
structure ProofPath where
  elements : List PathElement
deriving DecidableEq

/-- `MembershipProof<T, D>`. -/
structure MembershipProof where
  item : Bytes
  path : ProofPath
  root : Bytes
deriving DecidableEq

/-- The sibling-insertion loop of `ProofPath::verify`: iterate `i` over
`0..=siblings.len()`, pushing the current value at `i == position` and the
next unused sibling otherwise.  For `position ≤ siblings.length` this inserts
the current value at `position`; for an out-of-range position the current
value is silently dropped and the loop yields just the siblings. -/
def insertAt (position : Nat) (cur : Bytes) (sibs : List Bytes) : List Bytes :=
  if position ≤ sibs.length then sibs.take position ++ [cur] ++ sibs.drop position
  else sibs

/-- The folding loop of `ProofPath::verify`: `idx` is the enumeration index
(`level_idx`), `isRaw` the `current_is_raw` flag, `dg` the current digest
(meaningful only when `isRaw = false`; `current_raw` is always the item). -/
def verifyGo (dItem : Bytes → Bytes) (dItems : List Bytes → Bytes) (item : Bytes) :
    List PathElement → Nat → Bool → Bytes → Bytes
  | [], _, isRaw, dg => if isRaw then dItem item else dg
  | e :: rest, idx, isRaw, dg =>
    let cur := if isRaw then dItem item else dg
    match e with
    | .siblings pos sibs =>
        verifyGo dItem dItems item rest (idx + 1) false (dItems (insertAt pos cur sibs))
    | .rawSiblings pos sibs =>
        if idx = 0 then
          verifyGo dItem dItems item rest (idx + 1) false (dItems (insertAt pos item sibs))
        else
          verifyGo dItem dItems item rest (idx + 1) false (dItems (insertAt pos cur sibs))

/-- `ProofPath::verify`: recompute a root from the item and the path and
compare it with the expected root. -/
def ProofPath.verify (dItem : Bytes → Bytes) (dItems : List Bytes → Bytes)
    (pp : ProofPath) (item : Bytes) (expected_root : Bytes) : Bool :=
  verifyGo dItem dItems item pp.elements 0 true [] == expected_root

/-- `MembershipProof::verify`: verify the stored path against the stored root. -/
def MembershipProof.verify (dItem : Bytes → Bytes) (dItems : List Bytes → Bytes)
    (p : MembershipProof) : Bool :=
  p.path.verify dItem dItems p.item p.root

/-- The pieces of `LazyTower` state threaded through the overflow cascade
(`append_to_level` mutates them alongside the levels). -/
structure Ledger where
  item_positions : Nat → Option ItemPosition
  overflow_records : List OverflowRecord
  digest_to_nodes : Bytes → Option (List NodeId)
  level_nodes : Nat × Nat → Option NodeId

/-- `HashMap::insert` on the `(level, index) ↦ NodeId` map. -/
def lnInsert (f : Nat × Nat → Option NodeId) (k : Nat × Nat) (v : NodeId) :
    Nat × Nat → Option NodeId :=
  fun q => if q = k then some v else f q

/-- The removal loop after an overflow: `for i in 0..width { remove((level, i)) }`. -/
def lnRemoveBelow (f : Nat × Nat → Option NodeId) (level width : Nat) :
    Nat × Nat → Option NodeId :=
  fun q => if q.1 = level ∧ q.2 < width then none else f q

/-- The collection loop before an overflow digest:
`for i in 0..width { if let Some(nid) = level_nodes.get((level, i)) { push } }`. -/
def collectOverflowIds (f : Nat × Nat → Option NodeId) (level width : Nat) : List NodeId :=
  (List.range width).filterMap (fun i => f (level, i))

/-- `HashMap::insert` on the `digest bytes ↦ NodeIds` map. -/
def dtnInsert (f : Bytes → Option (List NodeId)) (k : Bytes) (v : List NodeId) :
    Bytes → Option (List NodeId) :=
  fun b => if b = k then some v else f b

/-- The position-update loop after a level-0 overflow: every `Item` id consumed
by the record has its position (if tracked) moved to the next level, at the
index the digest is about to occupy. -/
def updatePositions (f : Nat → Option ItemPosition) (ids : List NodeId)
    (level index : Nat) : Nat → Option ItemPosition :=
  fun j => if ids.contains (NodeId.item j) && (f j).isSome then some ⟨level, index⟩ else f j

/-- `LazyTower<T, D>`.  `width`, `levels` and `item_count` are as in the
source; the four hash maps are in `Ledger`-shaped fields modelled as
functions, and the recorded items as a function from index to bytes. -/
structure LazyTower where
  width : Nat
  levels : List (List TowerNode)
  item_count : Nat
  items : Nat → Option Bytes
  item_positions : Nat → Option ItemPosition
  overflow_records : List OverflowRecord
  digest_to_nodes : Bytes → Option (List NodeId)
  level_nodes : Nat × Nat → Option NodeId

namespace LazyTower

/-- The tower `new` returns on success: one empty level, no items, empty maps. -/
def mkEmpty (width : Nat) : LazyTower where
  width := width
  levels := [[]]
  item_count := 0
  items := fun _ => none
  item_positions := fun _ => none
  overflow_records := []
  digest_to_nodes := fun _ => none
  level_nodes := fun _ => none

/-- `LazyTower::new`: reject `width <= 1`, else an empty tower. -/
def new (width : Nat) : Except LazyTowerError LazyTower :=
  if width ≤ 1 then .error (.invalidWidth width) else .ok (mkEmpty width)

/-- `LazyTower::len`. -/
def len (t : LazyTower) : Nat := t.item_count

/-- `LazyTower::height`. -/
def height (t : LazyTower) : Nat := t.levels.length

/-- `LazyTower::is_empty`. -/
def is_empty (t : LazyTower) : Bool := t.item_count == 0

/-- `LazyTower::append_to_level`, the overflow cascade, as structural recursion
on the suffix of `levels` from the target level upward (`l` is the absolute
level index of the suffix head).  The `while levels.len() <= level` loop that
creates missing levels is the `[]` base case: the node lands alone in a fresh
level, which holds fewer than `width` nodes for every `width > 1` (the only
widths constructible through `new`), so the cascade stops there. -/
def append_to_level (dItems : List Bytes → Bytes) (w : Nat) (l : Nat)
    (node : TowerNode) (nid : NodeId) :
    List (List TowerNode) → Ledger → List (List TowerNode) × Ledger
  | [], aux =>
      ([[node]], { aux with level_nodes := lnInsert aux.level_nodes (l, 0) nid })
  | lvl :: rest, aux =>
      let node_index := lvl.length
      let lvl' := lvl ++ [node]
      let aux1 : Ledger :=
        { aux with level_nodes := lnInsert aux.level_nodes (l, node_index) nid }
      if w ≤ lvl'.length then
        let overflow_node_ids := collectOverflowIds aux1.level_nodes l w
        let dg := dItems (lvl'.map TowerNode.bytes)
        let digest_node_id := NodeId.digest overflow_node_ids
        let aux2 : Ledger :=
          { aux1 with
            digest_to_nodes := dtnInsert aux1.digest_to_nodes dg overflow_node_ids
            overflow_records := aux1.overflow_records ++ [⟨l, overflow_node_ids, dg⟩] }
        let aux3 : Ledger :=
          if l = 0 then
            { aux2 with
              item_positions :=
                updatePositions aux2.item_positions overflow_node_ids (l + 1)
                  ((rest.head?.getD []).length) }
          else aux2
        let aux4 : Ledger :=
          { aux3 with level_nodes := lnRemoveBelow aux3.level_nodes l w }
        let res := append_to_level dItems w (l + 1) (.digest dg) digest_node_id rest aux4
        ([] :: res.1, res.2)
      else (lvl' :: rest, aux1)

/-- `LazyTower::append`. -/
def append (dItems : List Bytes → Bytes) (t : LazyTower) (item : Bytes) : LazyTower :=
  let item_index := t.item_count
  let items' := fun j => if j = item_index then some item else t.items j
  -- `self.levels[0].len()`; level 0 always exists on towers built through `new`
  let pos : ItemPosition := ⟨0, (t.levels.head?.getD []).length⟩
  let positions' := fun j => if j = item_index then some pos else t.item_positions j
  let nid := NodeId.item item_index
  let ln' := lnInsert t.level_nodes (pos.level, pos.index) nid
  let res := append_to_level dItems t.width 0 (.item item) nid t.levels
    ⟨positions', t.overflow_records, t.digest_to_nodes, ln'⟩
  { width := t.width
    levels := res.1
    item_count := t.item_count + 1
    items := items'
    item_positions := res.2.item_positions
    overflow_records := res.2.overflow_records
    digest_to_nodes := res.2.digest_to_nodes
    level_nodes := res.2.level_nodes }

/-- Fold `append` over a list of items. -/
def appendAll (dItems : List Bytes → Bytes) (t : LazyTower) (xs : List Bytes) : LazyTower :=
  xs.foldl (append dItems) t

/-- The tower obtained from `new(w)` (for `w > 1`) after appending `xs` in order. -/
def towerOfList (dItems : List Bytes → Bytes) (w : Nat) (xs : List Bytes) : LazyTower :=
  appendAll dItems (mkEmpty w) xs

/-- The digest `root_digest` assigns to a single remaining top node: digest the
item if it is raw, else the stored digest. -/
def nodeRootDigest (dItem : Bytes → Bytes) : TowerNode → Bytes
  | .item bs => dItem bs
  | .digest bs => bs

/-- The scan of `root_digest` over the levels from the top downward (the input
list is `levels` reversed): first non-empty level decides. -/
def rootAux (dItem : Bytes → Bytes) (dItems : List Bytes → Bytes) :
    List (List TowerNode) → Option Bytes
  | [] => none
  | lvl :: rest =>
    match lvl with
    | [] => rootAux dItem dItems rest
    | [n] => some (nodeRootDigest dItem n)
    | ns => some (dItems (ns.map TowerNode.bytes))

/-- `LazyTower::root_digest`. -/
def root_digest (dItem : Bytes → Bytes) (dItems : List Bytes → Bytes)
    (t : LazyTower) : Option Bytes :=
  rootAux dItem dItems t.levels.reverse

end LazyTower

namespace LazyTower

/-- The position scan of `build_proof_path_recursive`: `position` starts at 0
and is overwritten by the index of every entry equal to the sought id. -/
def findPosition (ids : List NodeId) (nid : NodeId) : Nat :=
  ids.enum.foldl (fun pos p => if NodeId.beq p.2 nid then p.1 else pos) 0

/-- Level-0 sibling collection: for every id in the record other than the
target, push the raw bytes of the original item (ids that are not `Item`s, or
items missing from the store, are silently skipped). -/
def rawSiblingsAt (items : Nat → Option Bytes) (ids : List NodeId) (nid : NodeId) :
    List Bytes :=
  ids.filterMap (fun n =>
    if NodeId.beq n nid then none
    else match n with
      | .item j => items j
      | .digest _ => none)

/-- Higher-level sibling collection: for every `Digest` id in the record other
than the target, look up the overflow record with exactly those children and
push its result digest (non-`Digest` ids, or ids with no matching record, are
silently skipped). -/
def digestSiblingsAt (records : List OverflowRecord) (ids : List NodeId) (nid : NodeId) :
    List Bytes :=
  ids.filterMap (fun n =>
    if NodeId.beq n nid then none
    else match n with
      | .digest ch =>
          (records.find? (fun r2 => NodeId.beqList r2.node_ids ch)).map
            OverflowRecord.result_digest
      | .item _ => none)

/-- The `level_nodes` iteration of `build_proof_path_recursive`: find a live
position holding the sought id.  The Rust code iterates the hash map in
unspecified order; on towers reachable through `new`/`append` the map's
entries are exactly the occupied positions `(l, j)` with
`j < levels[l].len()`, and at most one of them holds any given id, so
scanning those positions finds the same entry. -/
def findLive (t : LazyTower) (nid : NodeId) : Option (Nat × Nat) :=
  ((List.range t.levels.length).flatMap (fun l =>
      (List.range ((t.levels.get? l).getD []).length).map (fun j => (l, j)))).find?
    (fun p => match t.level_nodes p with
      | some n => NodeId.beq n nid
      | none => false)

/-- Sibling bytes of a live node: every other node of its level, in position
order, as raw bytes (items and digests alike). -/
def liveSiblings (lvl : List TowerNode) (index : Nat) : List Bytes :=
  lvl.enum.filterMap (fun p => if p.1 = index then none else some p.2.bytes)

/-- `LazyTower::build_proof_path_recursive`.  The Rust recursion walks upward
through the ledger; each step moves from a node to the aggregate that consumed
it, and a node is consumed by at most one record, so the walk visits pairwise
distinct records and at most `overflow_records.len()` steps happen.  The
recursion is therefore run with fuel `overflow_records.len() + 1`, which the
walk can never exhaust. -/
def build_proof_path (t : LazyTower) : Nat → NodeId → List PathElement → List PathElement
  | 0, _, path => path
  | fuel + 1, nid, path =>
    match t.overflow_records.find? (fun r => r.node_ids.contains nid) with
    | some r =>
        let position := findPosition r.node_ids nid
        let elem :=
          if r.level = 0 then
            PathElement.rawSiblings position (rawSiblingsAt t.items r.node_ids nid)
          else
            PathElement.siblings position (digestSiblingsAt t.overflow_records r.node_ids nid)
        build_proof_path t fuel (NodeId.digest r.node_ids) (path ++ [elem])
    | none =>
        match findLive t nid with
        | some (l, index) =>
            match t.levels.get? l with
            | some lvl =>
                if 1 < lvl.length then path ++ [PathElement.rawSiblings index (liveSiblings lvl index)]
                else path
            | none => path
        | none => path

/-- `LazyTower::generate_proof`. -/
def generate_proof (dItem : Bytes → Bytes) (dItems : List Bytes → Bytes)
    (t : LazyTower) (index : Nat) : Except LazyTowerError MembershipProof :=
  if t.item_count = 0 ∨ t.item_count ≤ index then
    .error (.invalidIndex index t.item_count)
  else
    match t.items index with
    | none => .error .proofGenerationNotImplemented
    | some item =>
      match root_digest dItem dItems t with
      | none => .error .proofGenerationNotImplemented
      | some root =>
        if t.item_count = 1 then .ok ⟨item, ⟨[]⟩, root⟩
        else
          .ok ⟨item, ⟨build_proof_path t (t.overflow_records.length + 1)
            (NodeId.item index) []⟩, root⟩

end LazyTower

/-! ## Small list and map lemmas -/

theorem lnInsert_self (f : Nat × Nat → Option NodeId) (k : Nat × Nat) (v : NodeId) :
    lnInsert f k v k = some v := by simp [lnInsert]

theorem lnInsert_ne (f : Nat × Nat → Option NodeId) (k : Nat × Nat) (v : NodeId)
    (q : Nat × Nat) (h : q ≠ k) : lnInsert f k v q = f q := by simp [lnInsert, h]

theorem length_filterMap_all_isSome {α β : Type} (f : α → Option β) (L : List α)
    (h : ∀ a ∈ L, (f a).isSome) : (L.filterMap f).length = L.length := by
  induction L with
  | nil => rfl
  | cons a as ih =>
      have ha := h a (List.mem_cons_self a as)
      obtain ⟨b, hb⟩ := Option.isSome_iff_exists.mp ha
      simp only [List.filterMap_cons, hb, List.length_cons]
      rw [ih (fun x hx => h x (List.mem_cons_of_mem a hx))]

theorem filterMap_eq_map_of_all {α β : Type} (f : α → Option β) (g : α → β) (L : List α)
    (h : ∀ a ∈ L, f a = some (g a)) : L.filterMap f = L.map g := by
  induction L with
  | nil => rfl
  | cons a as ih =>
      simp only [List.filterMap_cons, h a (List.mem_cons_self a as), List.map_cons]
      rw [ih (fun x hx => h x (List.mem_cons_of_mem a hx))]

/-- Length of the level at depth `d` of a (suffix of) `levels`. -/
def lvlLen (s : List (List TowerNode)) (d : Nat) : Nat := ((s.get? d).getD []).length

theorem lvlLen_nil (d : Nat) : lvlLen [] d = 0 := by simp [lvlLen]

theorem lvlLen_cons_zero (a : List TowerNode) (s : List (List TowerNode)) :
    lvlLen (a :: s) 0 = a.length := by simp [lvlLen]

theorem lvlLen_cons_succ (a : List TowerNode) (s : List (List TowerNode)) (d : Nat) :
    lvlLen (a :: s) (d + 1) = lvlLen s d := by simp [lvlLen]

/-- The number of original items accounted for by the levels of a (suffix of a)
tower, each node at depth `d` standing for `w ^ d` items. -/
def levelWeightSum (w : Nat) : Nat → List (List TowerNode) → Nat
  | _, [] => 0
  | d, lvl :: rest => lvl.length * w ^ d + levelWeightSum w (d + 1) rest

namespace LazyTower

/-- The ledger state right after the overflow bookkeeping of one
`append_to_level` step (digest recorded, record appended, positions updated
for level 0, consumed entries removed), before the cascade recurses. -/
def overflowLedger (dItems : List Bytes → Bytes) (w l : Nat) (lvl : List TowerNode)
    (node : TowerNode) (nid : NodeId) (rest : List (List TowerNode)) (aux : Ledger) :
    Ledger :=
  let ln1 := lnInsert aux.level_nodes (l, lvl.length) nid
  let ids := collectOverflowIds ln1 l w
  let dg := dItems ((lvl ++ [node]).map TowerNode.bytes)
  { item_positions :=
      if l = 0 then
        updatePositions aux.item_positions ids (l + 1) ((rest.head?.getD []).length)
      else aux.item_positions
    overflow_records := aux.overflow_records ++ [⟨l, ids, dg⟩]
    digest_to_nodes := dtnInsert aux.digest_to_nodes dg ids
    level_nodes := lnRemoveBelow ln1 l w }

theorem append_to_level_nil (dItems : List Bytes → Bytes) (w l : Nat)
    (node : TowerNode) (nid : NodeId) (aux : Ledger) :
    append_to_level dItems w l node nid [] aux =
      ([[node]], { aux with level_nodes := lnInsert aux.level_nodes (l, 0) nid }) := rfl

theorem append_to_level_cons_stay (dItems : List Bytes → Bytes) (w l : Nat)
    (node : TowerNode) (nid : NodeId) (lvl : List TowerNode)
    (rest : List (List TowerNode)) (aux : Ledger) (h : ¬ w ≤ lvl.length + 1) :
    append_to_level dItems w l node nid (lvl :: rest) aux =
      ((lvl ++ [node]) :: rest,
        { aux with level_nodes := lnInsert aux.level_nodes (l, lvl.length) nid }) := by
  simp [append_to_level, h]

theorem append_to_level_cons_overflow (dItems : List Bytes → Bytes) (w l : Nat)
    (node : TowerNode) (nid : NodeId) (lvl : List TowerNode)
    (rest : List (List TowerNode)) (aux : Ledger) (h : w ≤ lvl.length + 1) :
    append_to_level dItems w l node nid (lvl :: rest) aux =
      ([] :: (append_to_level dItems w (l + 1)
          (.digest (dItems ((lvl ++ [node]).map TowerNode.bytes)))
          (NodeId.digest (collectOverflowIds (lnInsert aux.level_nodes (l, lvl.length) nid) l w))
          rest (overflowLedger dItems w l lvl node nid rest aux)).1,
        (append_to_level dItems w (l + 1)
          (.digest (dItems ((lvl ++ [node]).map TowerNode.bytes)))
          (NodeId.digest (collectOverflowIds (lnInsert aux.level_nodes (l, lvl.length) nid) l w))
          rest (overflowLedger dItems w l lvl node nid rest aux)).2) := by
  by_cases hl : l = 0 <;> simp [append_to_level, overflowLedger, h, hl]

end LazyTower

namespace LazyTower

theorem lnRemoveBelow_at (f : Nat × Nat → Option NodeId) (level width : Nat)
    (q : Nat × Nat) (h : q.1 = level ∧ q.2 < width) : lnRemoveBelow f level width q = none := by
  simp [lnRemoveBelow, h]

theorem lnRemoveBelow_other (f : Nat × Nat → Option NodeId) (level width : Nat)
    (q : Nat × Nat) (h : ¬(q.1 = level ∧ q.2 < width)) :
    lnRemoveBelow f level width q = f q := by
  simp only [lnRemoveBelow, if_neg h]

theorem overflowLedger_level_nodes (dItems : List Bytes → Bytes) (w l : Nat)
    (lvl : List TowerNode) (node : TowerNode) (nid : NodeId)
    (rest : List (List TowerNode)) (aux : Ledger) :
    (overflowLedger dItems w l lvl node nid rest aux).level_nodes =
      lnRemoveBelow (lnInsert aux.level_nodes (l, lvl.length) nid) l w := rfl

theorem overflowLedger_records (dItems : List Bytes → Bytes) (w l : Nat)
    (lvl : List TowerNode) (node : TowerNode) (nid : NodeId)
    (rest : List (List TowerNode)) (aux : Ledger) :
    (overflowLedger dItems w l lvl node nid rest aux).overflow_records =
      aux.overflow_records ++
        [⟨l, collectOverflowIds (lnInsert aux.level_nodes (l, lvl.length) nid) l w,
          dItems ((lvl ++ [node]).map TowerNode.bytes)⟩] := rfl

/-- Behaviour of one full cascade run `append_to_level dItems w l node nid suffix aux`
relative to level `l`: assuming the levels of the suffix are below width and
the `level_nodes` entries at and above `l` match the occupied positions, the
run (a) keeps every level below width, (b) adds exactly `w ^ l` to the item
weight of the suffix, (c) leaves `level_nodes` matching the new occupancies at
and above `l` and untouched below `l`, and (d) only appends overflow records,
each with exactly `w` consumed ids, at levels ≥ `l`, the one at level `l`
(if any) recording precisely the ids at positions `0..w` after the initial
insertion. -/
theorem append_to_level_spec (dItems : List Bytes → Bytes) (w : Nat)
    (suffix : List (List TowerNode)) :
    ∀ (l : Nat) (node : TowerNode) (nid : NodeId) (aux : Ledger)
      (lvls' : List (List TowerNode)) (aux' : Ledger),
      1 < w →
      (∀ lvl ∈ suffix, lvl.length < w) →
      (∀ j, j ≠ lvlLen suffix 0 → ((aux.level_nodes (l, j)).isSome ↔ j < lvlLen suffix 0)) →
      (∀ d j, 1 ≤ d → ((aux.level_nodes (l + d, j)).isSome ↔ j < lvlLen suffix d)) →
      append_to_level dItems w l node nid suffix aux = (lvls', aux') →
      lvls' ≠ [] ∧
      (∀ lvl ∈ lvls', lvl.length < w) ∧
      levelWeightSum w l lvls' = w ^ l + levelWeightSum w l suffix ∧
      (∀ d j, ((aux'.level_nodes (l + d, j)).isSome ↔ j < lvlLen lvls' d)) ∧
      (∀ p : Nat × Nat, p.1 < l → aux'.level_nodes p = aux.level_nodes p) ∧
      (∃ news, aux'.overflow_records = aux.overflow_records ++ news ∧
        ∀ r ∈ news, r.node_ids.length = w ∧ l ≤ r.level ∧
          (r.level = l → r.node_ids =
            (List.range w).filterMap
              (fun i => lnInsert aux.level_nodes (l, lvlLen suffix 0) nid (l, i)))) := by
  induction suffix with
  | nil =>
      intro l node nid aux lvls' aux' hw hb hcur hhi heq
      rw [append_to_level_nil] at heq
      injection heq with e1 e2
      subst e1; subst e2
      simp only [lvlLen_nil] at hcur hhi
      refine ⟨by simp, ?_, ?_, ?_, ?_, [], by simp, by simp⟩
      · intro lvl hl
        simp only [List.mem_singleton] at hl
        subst hl
        simpa using hw
      · simp [levelWeightSum]
      · intro d j
        dsimp only
        cases d with
        | zero =>
            simp only [Nat.add_zero]
            by_cases hj : j = 0
            · subst hj
              rw [lnInsert_self]
              simp [lvlLen]
            · rw [lnInsert_ne _ _ _ _ (by simp [Prod.ext_iff, hj])]
              have h0 := hcur j hj
              simp only [Nat.not_lt_zero, iff_false] at h0
              simp [h0, lvlLen, Nat.lt_one_iff, hj]
        | succ d =>
            rw [lnInsert_ne _ _ _ _ (by simp [Prod.ext_iff])]
            have h0 := hhi (d + 1) j (by omega)
            simp only [Nat.not_lt_zero, iff_false] at h0
            simp [h0, lvlLen]
      · intro p hp
        exact lnInsert_ne _ _ _ _ (by rintro rfl; simp at hp)
  | cons lvl rest ih =>
      intro l node nid aux lvls' aux' hw hb hcur hhi heq
      simp only [lvlLen_cons_zero] at hcur
      by_cases hov : w ≤ lvl.length + 1
      · -- overflow at level l
        rw [append_to_level_cons_overflow _ _ _ _ _ _ _ _ hov] at heq
        set ln1 := lnInsert aux.level_nodes (l, lvl.length) nid with hln1
        set ids := collectOverflowIds ln1 l w with hids
        set dg := dItems ((lvl ++ [node]).map TowerNode.bytes) with hdg
        set auxO := overflowLedger dItems w l lvl node nid rest aux with hauxO
        rcases h2 : append_to_level dItems w (l + 1) (TowerNode.digest dg)
            (NodeId.digest ids) rest auxO with ⟨lvls2, aux2⟩
        rw [h2] at heq
        dsimp only at heq
        injection heq with e1 e2
        subst e1; subst e2
        have hlen : lvl.length + 1 = w := by
          have := hb lvl (List.mem_cons_self _ _)
          omega
        have hO_ln : auxO.level_nodes = lnRemoveBelow ln1 l w := by
          rw [hauxO]; rfl
        have hids_some : ∀ i ∈ List.range w, (ln1 (l, i)).isSome := by
          intro i hi
          rw [List.mem_range] at hi
          by_cases hie : i = lvl.length
          · subst hie; rw [hln1, lnInsert_self]; rfl
          · rw [hln1, lnInsert_ne _ _ _ _ (by simp [Prod.ext_iff, hie])]
            exact (hcur i hie).mpr (by omega)
        have hids_len : ids.length = w := by
          rw [hids, collectOverflowIds, length_filterMap_all_isSome _ _ hids_some,
            List.length_range]
        have hcur2 : ∀ j, j ≠ lvlLen rest 0 →
            ((auxO.level_nodes (l + 1, j)).isSome ↔ j < lvlLen rest 0) := by
          intro j hj
          rw [hO_ln, lnRemoveBelow_other _ _ _ _ (by simp),
            hln1, lnInsert_ne _ _ _ _ (by simp [Prod.ext_iff])]
          have := hhi 1 j (le_refl 1)
          simpa [lvlLen_cons_succ] using this
        have hhi2 : ∀ d j, 1 ≤ d →
            ((auxO.level_nodes (l + 1 + d, j)).isSome ↔ j < lvlLen rest d) := by
          intro d j hd
          rw [hO_ln, lnRemoveBelow_other _ _ _ _ (by simp; omega),
            hln1, lnInsert_ne _ _ _ _ (by simp [Prod.ext_iff]; omega)]
          have := hhi (d + 1) j (by omega)
          rw [lvlLen_cons_succ] at this
          have harith : l + (d + 1) = l + 1 + d := by omega
          rw [harith] at this
          exact this
        obtain ⟨hne2, hbound2, hwt2, hln2, hlo2, news2, hrec2, hnews2⟩ :=
          ih (l + 1) (TowerNode.digest dg) (NodeId.digest ids) auxO lvls2 aux2 hw
            (fun x hx => hb x (List.mem_cons_of_mem _ hx)) hcur2 hhi2 h2
        refine ⟨by simp, ?_, ?_, ?_, ?_, ⟨l, ids, dg⟩ :: news2, ?_, ?_⟩
        · intro x hx
          rcases List.mem_cons.mp hx with h | h
          · subst h; simp only [List.length_nil]; omega
          · exact hbound2 x h
        · simp only [levelWeightSum, List.length_nil, Nat.zero_mul, Nat.zero_add]
          rw [hwt2]
          rw [pow_succ, ← hlen]
          ring
        · intro d j
          cases d with
          | zero =>
              rw [Nat.add_zero]
              have e0 : aux2.level_nodes (l, j) = auxO.level_nodes (l, j) :=
                hlo2 (l, j) (by simp)
              rw [e0, hO_ln]
              by_cases hj : j < w
              · rw [lnRemoveBelow_at _ _ _ _ (by simp [hj])]
                simp [lvlLen]
              · rw [lnRemoveBelow_other _ _ _ _ (by simp [hj]),
                  hln1, lnInsert_ne _ _ _ _ (by simp [Prod.ext_iff]; omega)]
                have := hcur j (by omega)
                simp only [lvlLen_cons_zero] at this ⊢
                constructor
                · intro hs
                  exact absurd (this.mp hs) (by omega)
                · intro hlt
                  exact absurd hlt (by simp [lvlLen])
          | succ d =>
              have harith : l + (d + 1) = l + 1 + d := by omega
              rw [harith]
              rw [lvlLen_cons_succ]
              exact hln2 d j
        · intro p hp
          have e0 : aux2.level_nodes p = auxO.level_nodes p := hlo2 p (by omega)
          rw [e0, hO_ln, lnRemoveBelow_other _ _ _ _ (by omega),
            hln1, lnInsert_ne _ _ _ _ (by rintro rfl; simp at hp)]
        · rw [hrec2, hauxO, overflowLedger_records]
          simp [hln1, hids, hdg]
        · intro r hr
          rcases List.mem_cons.mp hr with h | h
          · subst h
            refine ⟨hids_len, le_refl l, fun _ => ?_⟩
            rw [hids, collectOverflowIds, hln1]
            simp [lvlLen_cons_zero]
          · obtain ⟨hr1, hr2, _⟩ := hnews2 r h
            exact ⟨hr1, by omega, fun hrl => absurd hrl (by omega)⟩
      · -- no overflow: the node stays at level l
        rw [append_to_level_cons_stay _ _ _ _ _ _ _ _ hov] at heq
        injection heq with e1 e2
        subst e1; subst e2
        refine ⟨by simp, ?_, ?_, ?_, ?_, [], by simp, by simp⟩
        · intro x hx
          rcases List.mem_cons.mp hx with h | h
          · subst h; simp only [List.length_append, List.length_singleton]; omega
          · exact hb x (List.mem_cons_of_mem _ h)
        · simp only [levelWeightSum, List.length_append, List.length_singleton]
          ring
        · intro d j
          cases d with
          | zero =>
              rw [Nat.add_zero]
              show ((lnInsert aux.level_nodes (l, lvl.length) nid (l, j)).isSome ↔ _)
              rw [lvlLen_cons_zero, List.length_append, List.length_singleton]
              by_cases hj : j = lvl.length
              · subst hj
                rw [lnInsert_self]
                simp
              · rw [lnInsert_ne _ _ _ _ (by simp [Prod.ext_iff, hj])]
                rw [hcur j hj]
                omega
          | succ d =>
              show ((lnInsert aux.level_nodes (l, lvl.length) nid (l + (d + 1), j)).isSome ↔ _)
              rw [lnInsert_ne _ _ _ _ (by simp [Prod.ext_iff])]
              rw [lvlLen_cons_succ]
              have := hhi (d + 1) j (by omega)
              rw [lvlLen_cons_succ] at this
              exact this
        · intro p hp
          exact lnInsert_ne _ _ _ _ (by rintro rfl; simp at hp)

end LazyTower

namespace LazyTower

/-- Invariant of every tower reachable through `new(w)` and `append`:
the configured width, at least one level, every level strictly below width,
level occupancies accounting for the item count in base `w`, items recorded
for every index below the count, `level_nodes` defined exactly at the
occupied positions with level 0 holding the most recent items in append
order, and every overflow record holding exactly `w` ids — consecutive item
ids, in append order, for level-0 records. -/
structure Inv (w : Nat) (t : LazyTower) : Prop where
  width_eq : t.width = w
  one_lt : 1 < w
  levels_ne : t.levels ≠ []
  bound : ∀ lvl ∈ t.levels, lvl.length < w
  weight : levelWeightSum w 0 t.levels = t.item_count
  items_lt : ∀ i < t.item_count, (t.items i).isSome
  ln_dom : ∀ l j, ((t.level_nodes (l, j)).isSome ↔ j < lvlLen t.levels l)
  ln_zero : ∀ j < lvlLen t.levels 0,
      t.level_nodes (0, j) =
        some (NodeId.item (t.item_count - lvlLen t.levels 0 + j))
  rec_len : ∀ r ∈ t.overflow_records, r.node_ids.length = w
  rec_zero : ∀ r ∈ t.overflow_records, r.level = 0 →
      ∃ k, r.node_ids = (List.range w).map (fun j => NodeId.item (k + j))

theorem Inv_mkEmpty (w : Nat) (hw : 1 < w) : Inv w (mkEmpty w) := by
  refine ⟨rfl, hw, by simp [mkEmpty], ?_, ?_, ?_, ?_, ?_, ?_, ?_⟩
  · intro lvl hl
    simp only [mkEmpty, List.mem_singleton] at hl
    subst hl
    simp only [List.length_nil]
    omega
  · simp [mkEmpty, levelWeightSum]
  · intro i hi
    simp [mkEmpty] at hi
  · intro l j
    simp only [mkEmpty]
    constructor
    · simp
    · intro h
      exfalso
      rcases l with _ | l <;> simp [lvlLen] at h
  · intro j hj
    simp [mkEmpty, lvlLen] at hj
  · intro r hr
    simp [mkEmpty] at hr
  · intro r hr
    simp [mkEmpty] at hr

end LazyTower

theorem all_isSome_of_length_filterMap {α β : Type} (f : α → Option β) (L : List α)
    (h : (L.filterMap f).length = L.length) : ∀ a ∈ L, (f a).isSome := by
  induction L with
  | nil => intro a ha; cases ha
  | cons a as ih =>
      intro b hb
      have hle : (as.filterMap f).length ≤ as.length := List.length_filterMap_le f as
      cases hfa : f a with
      | none =>
          rw [List.filterMap_cons, hfa] at h
          simp only [List.length_cons] at h
          omega
      | some c =>
          rw [List.filterMap_cons, hfa] at h
          simp only [List.length_cons, Nat.add_right_cancel_iff] at h
          rcases List.mem_cons.mp hb with hba | hbs
          · subst hba; simp [hfa]
          · exact ih h b hbs

namespace LazyTower

theorem lnInsert_idem (f : Nat × Nat → Option NodeId) (k : Nat × Nat) (v : NodeId) :
    lnInsert (lnInsert f k v) k v = lnInsert f k v := by
  funext q
  by_cases h : q = k <;> simp [lnInsert, h]

theorem head_le_weight (w : Nat) (lvl0 : List TowerNode) (restL : List (List TowerNode)) :
    lvl0.length ≤ levelWeightSum w 0 (lvl0 :: restL) := by
  simp only [levelWeightSum, pow_zero, Nat.mul_one]
  omega

/-- `append` preserves the reachability invariant. -/
theorem Inv_append (dItems : List Bytes → Bytes) (w : Nat) (t : LazyTower) (x : Bytes)
    (h : Inv w t) : Inv w (t.append dItems x) := by
  obtain ⟨hwidth, hw, hne, hb, hwt, hitems, hdom, hzero, hreclen, hreczero⟩ := h
  obtain ⟨lvl0, restL, hlv⟩ : ∃ a s, t.levels = a :: s := by
    cases hc : t.levels with
    | nil => exact absurd hc hne
    | cons a s => exact ⟨a, s, rfl⟩
  rcases hres : append_to_level dItems t.width 0 (TowerNode.item x)
      (NodeId.item t.item_count) t.levels
      ⟨fun j => if j = t.item_count then
          some ⟨0, (t.levels.head?.getD []).length⟩ else t.item_positions j,
        t.overflow_records, t.digest_to_nodes,
        lnInsert t.level_nodes (0, (t.levels.head?.getD []).length)
          (NodeId.item t.item_count)⟩
    with ⟨lvls2, aux2⟩
  have happ : t.append dItems x =
      { width := t.width
        levels := lvls2
        item_count := t.item_count + 1
        items := fun j => if j = t.item_count then some x else t.items j
        item_positions := aux2.item_positions
        overflow_records := aux2.overflow_records
        digest_to_nodes := aux2.digest_to_nodes
        level_nodes := aux2.level_nodes } := by
    simp only [append]
    rw [hres]
  -- normalize: the head length of `t.levels`
  rw [hlv] at hres
  simp only [List.head?_cons, Option.getD_some] at hres
  rw [hlv] at hb hwt hdom hzero
  rw [hwidth] at hres
  -- hypotheses of the cascade specification at level 0
  have hcur0 : ∀ j, j ≠ lvlLen (lvl0 :: restL) 0 →
      (((lnInsert t.level_nodes (0, lvl0.length) (NodeId.item t.item_count)) (0, j)).isSome ↔
        j < lvlLen (lvl0 :: restL) 0) := by
    intro j hj
    rw [lvlLen_cons_zero] at hj ⊢
    rw [lnInsert_ne _ _ _ _ (by simp [Prod.ext_iff, hj])]
    have := hdom 0 j
    rwa [lvlLen_cons_zero] at this
  have hhi0 : ∀ d j, 1 ≤ d →
      (((lnInsert t.level_nodes (0, lvl0.length) (NodeId.item t.item_count)) (0 + d, j)).isSome ↔
        j < lvlLen (lvl0 :: restL) d) := by
    intro d j hd
    rw [lnInsert_ne _ _ _ _ (by simp [Prod.ext_iff]; omega)]
    have := hdom d j
    simpa using this
  obtain ⟨hne2, hb2, hwt2, hln2, hlo2, news2, hrec2, hnews2⟩ :=
    append_to_level_spec dItems w (lvl0 :: restL) 0 (TowerNode.item x)
      (NodeId.item t.item_count) _ lvls2 aux2 hw hb hcur0 hhi0 hres
  have hn0_le : lvl0.length ≤ t.item_count := by
    rw [← hwt]
    exact head_le_weight w lvl0 restL
  refine ⟨?_, hw, ?_, ?_, ?_, ?_, ?_, ?_, ?_, ?_⟩
  · rw [happ]; exact hwidth
  · rw [happ]; exact hne2
  · rw [happ]; exact hb2
  · rw [happ]
    show levelWeightSum w 0 lvls2 = t.item_count + 1
    rw [hwt2, ← hwt]
    simp [pow_zero]
    omega
  · rw [happ]
    intro i hi
    simp only at hi ⊢
    by_cases hie : i = t.item_count
    · simp [hie]
    · rw [if_neg hie]
      exact hitems i (by omega)
  · rw [happ]
    intro l j
    have := hln2 l j
    simpa using this
  · -- level-0 values after the append
    rw [happ]
    simp only
    by_cases hov : w ≤ lvl0.length + 1
    · rw [append_to_level_cons_overflow _ _ _ _ _ _ _ _ hov] at hres
      injection hres with e1 e2
      intro j hj
      rw [← e1, lvlLen_cons_zero] at hj
      simp at hj
    · rw [append_to_level_cons_stay _ _ _ _ _ _ _ _ hov] at hres
      injection hres with e1 e2
      intro j hj
      rw [← e1, lvlLen_cons_zero, List.length_append, List.length_singleton] at hj ⊢
      rw [← e2]
      dsimp only
      rw [lnInsert_idem]
      by_cases hje : j = lvl0.length
      · subst hje
        rw [lnInsert_self]
        congr 2
        omega
      · rw [lnInsert_ne _ _ _ _ (by simp [Prod.ext_iff, hje])]
        have := hzero j (by rw [lvlLen_cons_zero]; omega)
        rw [lvlLen_cons_zero] at this
        rw [this]
        congr 2
        omega
  · rw [happ]
    simp only
    rw [hrec2]
    intro r hr
    rcases List.mem_append.mp hr with hold | hnew
    · exact hreclen r hold
    · exact (hnews2 r hnew).1
  · rw [happ]
    simp only
    rw [hrec2]
    intro r hr hr0
    rcases List.mem_append.mp hr with hold | hnew
    · exact hreczero r hold hr0
    · obtain ⟨hlen_r, _, hE⟩ := hnews2 r hnew
      have hE' := hE hr0
      rw [lvlLen_cons_zero] at hE'
      dsimp only at hE'
      rw [lnInsert_idem] at hE'
      -- all positions 0..w were occupied, so the level was exactly full
      have hall : ∀ i ∈ List.range w,
          ((lnInsert t.level_nodes (0, lvl0.length) (NodeId.item t.item_count) (0, i)).isSome) := by
        apply all_isSome_of_length_filterMap
        rw [← hE', hlen_r, List.length_range]
      have hn0 : lvl0.length + 1 = w := by
        by_contra hne1
        have hlt : lvl0.length + 1 < w := by
          have := hb lvl0 (List.mem_cons_self _ _)
          omega
        have h1 := hall (lvl0.length + 1) (List.mem_range.mpr hlt)
        rw [lnInsert_ne _ _ _ _ (by simp [Prod.ext_iff])] at h1
        have hd := (hdom 0 (lvl0.length + 1)).mp h1
        rw [lvlLen_cons_zero] at hd
        omega
      refine ⟨t.item_count - lvl0.length, ?_⟩
      rw [hE']
      apply filterMap_eq_map_of_all
      intro i hi
      rw [List.mem_range] at hi
      by_cases hie : i = lvl0.length
      · subst hie
        rw [lnInsert_self]
        congr 2
        omega
      · rw [lnInsert_ne _ _ _ _ (by simp [Prod.ext_iff, hie])]
        have := hzero i (by rw [lvlLen_cons_zero]; omega)
        rw [lvlLen_cons_zero] at this
        exact this

end LazyTower

namespace LazyTower

theorem appendAll_nil (dItems : List Bytes → Bytes) (t : LazyTower) :
    appendAll dItems t [] = t := rfl

theorem appendAll_cons (dItems : List Bytes → Bytes) (t : LazyTower) (x : Bytes)
    (xs : List Bytes) :
    appendAll dItems t (x :: xs) = appendAll dItems (t.append dItems x) xs := rfl

theorem Inv_appendAll (dItems : List Bytes → Bytes) (w : Nat) (xs : List Bytes) :
    ∀ (t : LazyTower), Inv w t → Inv w (appendAll dItems t xs) := by
  induction xs with
  | nil => intro t h; exact h
  | cons x xs ih =>
      intro t h
      rw [appendAll_cons]
      exact ih _ (Inv_append dItems w t x h)

theorem Inv_towerOfList (dItems : List Bytes → Bytes) (w : Nat) (xs : List Bytes)
    (hw : 1 < w) : Inv w (towerOfList dItems w xs) :=
  Inv_appendAll dItems w xs _ (Inv_mkEmpty w hw)

/-- Modelled from the spec (root rule for the deciding level): the digest of
the level's sole node when exactly one node remains, otherwise the
ordered-group digest of the level's nodes. -/
def specGroupDigest (dItem : Bytes → Bytes) (dItems : List Bytes → Bytes)
    (ns : List TowerNode) : Bytes :=
  match ns with
  | [n] => nodeRootDigest dItem n
  | ns => dItems (ns.map TowerNode.bytes)

/-- Modelled from the spec: the root is determined solely by the
highest-indexed non-empty level, via `specGroupDigest`; `none` when every
level is empty. -/
def specTopLevelRoot (dItem : Bytes → Bytes) (dItems : List Bytes → Bytes)
    (lvls : List (List TowerNode)) : Option Bytes :=
  (lvls.reverse.find? (fun lvl => !lvl.isEmpty)).map (specGroupDigest dItem dItems)

theorem rootAux_eq_find (dItem : Bytes → Bytes) (dItems : List Bytes → Bytes)
    (L : List (List TowerNode)) :
    rootAux dItem dItems L =
      (L.find? (fun lvl => !lvl.isEmpty)).map (specGroupDigest dItem dItems) := by
  induction L with
  | nil => rfl
  | cons lvl rest ih =>
      cases lvl with
      | nil =>
          rw [List.find?_cons_of_neg _ (by simp)]
          exact ih
      | cons a tail =>
          rw [List.find?_cons_of_pos _ (by simp)]
          cases tail with
          | nil => rfl
          | cons b tail2 => rfl

theorem root_digest_eq_spec (dItem : Bytes → Bytes) (dItems : List Bytes → Bytes)
    (t : LazyTower) :
    root_digest dItem dItems t = specTopLevelRoot dItem dItems t.levels :=
  rootAux_eq_find dItem dItems t.levels.reverse

theorem root_digest_eq_none_iff (dItem : Bytes → Bytes) (dItems : List Bytes → Bytes)
    (t : LazyTower) :
    root_digest dItem dItems t = none ↔ ∀ lvl ∈ t.levels, lvl = [] := by
  rw [root_digest_eq_spec, specTopLevelRoot, Option.map_eq_none', List.find?_eq_none]
  constructor
  · intro h lvl hl
    have := h lvl (List.mem_reverse.mpr hl)
    simpa [List.isEmpty_iff] using this
  · intro h lvl hl
    have := h lvl (List.mem_reverse.mp hl)
    simp [this]

theorem weight_zero_iff (w : Nat) (hw : 0 < w) (L : List (List TowerNode)) :
    ∀ d, levelWeightSum w d L = 0 ↔ ∀ lvl ∈ L, lvl = [] := by
  induction L with
  | nil => intro d; simp [levelWeightSum]
  | cons lvl rest ih =>
      intro d
      have hp : 0 < w ^ d := pow_pos hw d
      simp only [levelWeightSum, List.mem_cons, Nat.add_eq_zero]
      constructor
      · rintro ⟨h1, h2⟩
        have hlen : lvl.length = 0 := by
          rcases Nat.mul_eq_zero.mp h1 with h | h
          · exact h
          · omega
        intro y hy
        rcases hy with hy | hy
        · subst hy; exact List.length_eq_zero.mp hlen
        · exact (ih (d + 1)).mp h2 y hy
      · intro hall
        constructor
        · have : lvl = [] := hall lvl (Or.inl rfl)
          simp [this]
        · exact (ih (d + 1)).mpr (fun y hy => hall y (Or.inr hy))

theorem root_digest_isSome_of_pos (dItem : Bytes → Bytes) (dItems : List Bytes → Bytes)
    (w : Nat) (t : LazyTower) (h : Inv w t) (hc : 0 < t.item_count) :
    ∃ root, root_digest dItem dItems t = some root := by
  cases hr : root_digest dItem dItems t with
  | some root => exact ⟨root, rfl⟩
  | none =>
      exfalso
      have hall := (root_digest_eq_none_iff dItem dItems t).mp hr
      have := (weight_zero_iff w (by have := h.one_lt; omega) t.levels 0).mpr hall
      rw [h.weight] at this
      omega

end LazyTower

namespace LazyTower

theorem append_to_level_records_mono (dItems : List Bytes → Bytes) (w : Nat)
    (suffix : List (List TowerNode)) :
    ∀ (l : Nat) (node : TowerNode) (nid : NodeId) (aux : Ledger),
      ∃ news, (append_to_level dItems w l node nid suffix aux).2.overflow_records =
        aux.overflow_records ++ news := by
  induction suffix with
  | nil =>
      intro l node nid aux
      rw [append_to_level_nil]
      exact ⟨[], by simp⟩
  | cons lvl rest ih =>
      intro l node nid aux
      by_cases hov : w ≤ lvl.length + 1
      · rw [append_to_level_cons_overflow _ _ _ _ _ _ _ _ hov]
        obtain ⟨news, hn⟩ := ih (l + 1)
          (.digest (dItems ((lvl ++ [node]).map TowerNode.bytes)))
          (NodeId.digest (collectOverflowIds (lnInsert aux.level_nodes (l, lvl.length) nid) l w))
          (overflowLedger dItems w l lvl node nid rest aux)
        refine ⟨⟨l, collectOverflowIds (lnInsert aux.level_nodes (l, lvl.length) nid) l w,
          dItems ((lvl ++ [node]).map TowerNode.bytes)⟩ :: news, ?_⟩
        dsimp only
        rw [hn, overflowLedger_records]
        simp
      · rw [append_to_level_cons_stay _ _ _ _ _ _ _ _ hov]
        exact ⟨[], by simp⟩

theorem append_records_mono (dItems : List Bytes → Bytes) (t : LazyTower) (x : Bytes) :
    ∃ news, (t.append dItems x).overflow_records = t.overflow_records ++ news := by
  obtain ⟨news, hn⟩ := append_to_level_records_mono dItems t.width t.levels 0
    (TowerNode.item x) (NodeId.item t.item_count)
    ⟨fun j => if j = t.item_count then
        some ⟨0, (t.levels.head?.getD []).length⟩ else t.item_positions j,
      t.overflow_records, t.digest_to_nodes,
      lnInsert t.level_nodes (0, (t.levels.head?.getD []).length)
        (NodeId.item t.item_count)⟩
  refine ⟨news, ?_⟩
  simp only [append]
  exact hn

end LazyTower

namespace LazyTower

theorem generate_proof_root (dItem : Bytes → Bytes) (dItems : List Bytes → Bytes)
    (t : LazyTower) (i : Nat) (p : MembershipProof)
    (h : generate_proof dItem dItems t i = Except.ok p) :
    root_digest dItem dItems t = some p.root := by
  unfold generate_proof at h
  by_cases h0 : t.item_count = 0 ∨ t.item_count ≤ i
  · rw [if_pos h0] at h
    exact Except.noConfusion h
  · rw [if_neg h0] at h
    cases hitem : t.items i with
    | none =>
        simp only [hitem] at h
        exact Except.noConfusion h
    | some item =>
        simp only [hitem] at h
        cases hroot : root_digest dItem dItems t with
        | none =>
            simp only [hroot] at h
            exact Except.noConfusion h
        | some root =>
            simp only [hroot] at h
            by_cases hc1 : t.item_count = 1
            · rw [if_pos hc1] at h
              injection h with h'
              rw [← h']
            · rw [if_neg hc1] at h
              injection h with h'
              rw [← h']

end LazyTower

/-- C8: for every width, `new(W)` succeeds exactly when `W > 1`, returning a
tower with one empty level and zero items; `new(0)` and `new(1)` fail with
`InvalidWidth` carrying the offending width. -/
theorem new_width_spec (w : Nat) :
    (1 < w → LazyTower.new w = Except.ok (LazyTower.mkEmpty w) ∧
      (LazyTower.mkEmpty w).levels = [[]] ∧ (LazyTower.mkEmpty w).item_count = 0) ∧
    (w ≤ 1 → LazyTower.new w = Except.error (LazyTowerError.invalidWidth w)) := by
  constructor
  · intro hw
    refine ⟨?_, rfl, rfl⟩
    simp only [LazyTower.new]
    rw [if_neg (by omega)]
  · intro hw
    simp only [LazyTower.new]
    rw [if_pos hw]

/-- Witness for C8 at widths 2, 0 and 1. -/
theorem new_width_spec_witness :
    (LazyTower.new 2 = Except.ok (LazyTower.mkEmpty 2) ∧
      (LazyTower.mkEmpty 2).levels = [[]] ∧ (LazyTower.mkEmpty 2).item_count = 0) ∧
    LazyTower.new 0 = Except.error (LazyTowerError.invalidWidth 0) ∧
    LazyTower.new 1 = Except.error (LazyTowerError.invalidWidth 1) :=
  ⟨(new_width_spec 2).1 (by decide), (new_width_spec 0).2 (by decide),
    (new_width_spec 1).2 (by decide)⟩

/-- C5: at width 2, appending "A","B","C","D" in order leaves the root equal
to `digest_items([digest_items([A,B]), digest_items([C,D])])`. -/
theorem width2_ABCD_root :
    LazyTower.root_digest mock_digest_item mock_digest_items
        (LazyTower.towerOfList mock_digest_items 2
          [strBytes "A", strBytes "B", strBytes "C", strBytes "D"]) =
      some (mock_digest_items [mock_digest_items [strBytes "A", strBytes "B"],
        mock_digest_items [strBytes "C", strBytes "D"]]) := by
  decide

/-- C4 counterexample: for MockDigest, the digest of the one-element group
["A"] is "digest_items[A]" while digest_item("A") is "digest(A)". -/
theorem mock_digest_items_singleton_ne :
    mock_digest_items [strBytes "A"] ≠ mock_digest_item (strBytes "A") := by
  decide

/-- C4 amended: Sha256Digest satisfies the one-element-group law — both sides
hash exactly the element's bytes; MockDigest does not (see the
counterexample). -/
theorem sha256_digest_items_singleton (H : Bytes → Bytes) (x : Bytes) :
    sha256_digest_items H [x] = sha256_digest_item H x := by
  simp [sha256_digest_items, sha256_digest_item]

/-- C1 (failing run): at width 2, immediately after appending "A","B","C",
`generate_proof(2)` succeeds but the returned proof fails `verify()`: the
proof path is empty, so verification recomputes `digest_item("C")`, while the
stored root is `digest_items(["A","B"])` — the digest of the highest
non-empty level, which does not cover item 2 at all. -/
theorem roundtrip_fails_width2_ABC :
    (LazyTower.generate_proof mock_digest_item mock_digest_items
        (LazyTower.towerOfList mock_digest_items 2
          [strBytes "A", strBytes "B", strBytes "C"]) 2).isOk = true ∧
    (LazyTower.generate_proof mock_digest_item mock_digest_items
        (LazyTower.towerOfList mock_digest_items 2
          [strBytes "A", strBytes "B", strBytes "C"]) 2).toOption.map
      (MembershipProof.verify mock_digest_item mock_digest_items) = some false := by
  constructor <;> decide

/-- C2: on every reachable tower, `root_digest()` is `none` exactly when the
tower is empty, and otherwise is determined solely by the highest-indexed
non-empty level — its sole node's digest (digesting a raw item) when one node
remains, else the ordered-group digest of the level. -/
theorem root_digest_spec (dItem : Bytes → Bytes) (dItems : List Bytes → Bytes)
    (w : Nat) (xs : List Bytes) (hw : 1 < w) :
    (LazyTower.root_digest dItem dItems (LazyTower.towerOfList dItems w xs) = none ↔
      (LazyTower.towerOfList dItems w xs).len = 0) ∧
    LazyTower.root_digest dItem dItems (LazyTower.towerOfList dItems w xs) =
      LazyTower.specTopLevelRoot dItem dItems
        (LazyTower.towerOfList dItems w xs).levels := by
  have hInv := LazyTower.Inv_towerOfList dItems w xs hw
  refine ⟨?_, LazyTower.root_digest_eq_spec dItem dItems _⟩
  rw [LazyTower.root_digest_eq_none_iff,
    ← LazyTower.weight_zero_iff w (by omega) _ 0, hInv.weight]
  exact Iff.rfl

/-- Witness for C2 at width 2 with the single item "A". -/
theorem root_digest_spec_witness :
    (LazyTower.root_digest mock_digest_item mock_digest_items
        (LazyTower.towerOfList mock_digest_items 2 [strBytes "A"]) = none ↔
      (LazyTower.towerOfList mock_digest_items 2 [strBytes "A"]).len = 0) ∧
    LazyTower.root_digest mock_digest_item mock_digest_items
        (LazyTower.towerOfList mock_digest_items 2 [strBytes "A"]) =
      LazyTower.specTopLevelRoot mock_digest_item mock_digest_items
        (LazyTower.towerOfList mock_digest_items 2 [strBytes "A"]).levels :=
  root_digest_spec mock_digest_item mock_digest_items 2 [strBytes "A"] (by decide)

/-- C3: after any append to a reachable tower of width `w > 1`, every level
holds strictly fewer than `w` nodes. -/
theorem no_level_at_width_after_append (dItems : List Bytes → Bytes) (w : Nat)
    (xs : List Bytes) (x : Bytes) (hw : 1 < w) :
    ∀ lvl ∈ (LazyTower.append dItems (LazyTower.towerOfList dItems w xs) x).levels,
      lvl.length < w :=
  (LazyTower.Inv_append dItems w _ x (LazyTower.Inv_towerOfList dItems w xs hw)).bound

/-- Witness for C3: width 2, items "A" then "B" (which overflows level 0). -/
theorem no_level_at_width_after_append_witness :
    (LazyTower.append mock_digest_items
        (LazyTower.towerOfList mock_digest_items 2 [strBytes "A"])
        (strBytes "B")).levels.all (fun lvl => decide (lvl.length < 2)) = true := by
  have h := no_level_at_width_after_append mock_digest_items 2 [strBytes "A"]
    (strBytes "B") (by decide)
  exact List.all_eq_true.mpr (fun lvl hl => decide_eq_true (h lvl hl))

/-- C10: after any append to a reachable tower, the level occupancies are the
base-`w` digits of the item count: each node at depth `d` accounts for
`w ^ d` items, the weighted occupancies sum to `len()`, and every digit is
below `w`. -/
theorem occupancy_is_base_w_of_len (dItems : List Bytes → Bytes) (w : Nat)
    (xs : List Bytes) (x : Bytes) (hw : 1 < w) :
    levelWeightSum w 0
        (LazyTower.append dItems (LazyTower.towerOfList dItems w xs) x).levels =
      (LazyTower.append dItems (LazyTower.towerOfList dItems w xs) x).len ∧
    ∀ lvl ∈ (LazyTower.append dItems (LazyTower.towerOfList dItems w xs) x).levels,
      lvl.length < w :=
  let h := LazyTower.Inv_append dItems w _ x (LazyTower.Inv_towerOfList dItems w xs hw)
  ⟨h.weight, h.bound⟩

/-- Witness for C10: width 2 after appending "A","B","C". -/
theorem occupancy_is_base_w_of_len_witness :
    levelWeightSum 2 0
        (LazyTower.append mock_digest_items
          (LazyTower.towerOfList mock_digest_items 2 [strBytes "A", strBytes "B"])
          (strBytes "C")).levels =
      (LazyTower.append mock_digest_items
        (LazyTower.towerOfList mock_digest_items 2 [strBytes "A", strBytes "B"])
        (strBytes "C")).len ∧
    (LazyTower.append mock_digest_items
        (LazyTower.towerOfList mock_digest_items 2 [strBytes "A", strBytes "B"])
        (strBytes "C")).levels.all (fun lvl => decide (lvl.length < 2)) = true := by
  have h := occupancy_is_base_w_of_len mock_digest_items 2 [strBytes "A", strBytes "B"]
    (strBytes "C") (by decide)
  exact ⟨h.1, List.all_eq_true.mpr (fun lvl hl => decide_eq_true (h.2 lvl hl))⟩

/-- C7: on every reachable tower, `generate_proof(i)` returns the
`InvalidIndex` error (carrying `i` and `len()`) exactly when the tower is
empty or `i ≥ len()`, and returns a proof for every valid index.
`generate_proof` takes the tower by shared reference and is modelled as a
pure function, so a failed call cannot modify the tower. -/
theorem generate_proof_invalid_index_iff (dItem : Bytes → Bytes)
    (dItems : List Bytes → Bytes) (w : Nat) (xs : List Bytes) (hw : 1 < w) (i : Nat) :
    (LazyTower.generate_proof dItem dItems (LazyTower.towerOfList dItems w xs) i =
        Except.error (LazyTowerError.invalidIndex i
          (LazyTower.towerOfList dItems w xs).len) ↔
      ((LazyTower.towerOfList dItems w xs).len = 0 ∨
        (LazyTower.towerOfList dItems w xs).len ≤ i)) ∧
    (i < (LazyTower.towerOfList dItems w xs).len →
      ∃ p, LazyTower.generate_proof dItem dItems (LazyTower.towerOfList dItems w xs) i =
        Except.ok p) := by
  have hInv := LazyTower.Inv_towerOfList dItems w xs hw
  have hok : i < (LazyTower.towerOfList dItems w xs).item_count →
      ∃ p, LazyTower.generate_proof dItem dItems (LazyTower.towerOfList dItems w xs) i =
        Except.ok p := by
    intro hi
    obtain ⟨item, hitem⟩ := Option.isSome_iff_exists.mp (hInv.items_lt i hi)
    obtain ⟨root, hroot⟩ :=
      LazyTower.root_digest_isSome_of_pos dItem dItems w _ hInv (by omega)
    unfold LazyTower.generate_proof
    rw [if_neg (by omega)]
    simp only [hitem, hroot]
    by_cases hc1 : (LazyTower.towerOfList dItems w xs).item_count = 1
    · rw [if_pos hc1]
      exact ⟨_, rfl⟩
    · rw [if_neg hc1]
      exact ⟨_, rfl⟩
  constructor
  · constructor
    · intro herr
      by_contra hnot
      push_neg at hnot
      obtain ⟨h1, h2⟩ := hnot
      obtain ⟨p, hp⟩ := hok (by simp only [LazyTower.len] at h2; exact h2)
      rw [hp] at herr
      exact Except.noConfusion herr
    · intro hcond
      unfold LazyTower.generate_proof
      rw [if_pos (by simpa only [LazyTower.len] using hcond)]
      rfl
  · intro hi
    exact hok (by simpa only [LazyTower.len] using hi)

/-- Witness for C7 at width 2, items ["A"], index 0 (a valid index). -/
theorem generate_proof_invalid_index_iff_witness :
    (LazyTower.generate_proof mock_digest_item mock_digest_items
        (LazyTower.towerOfList mock_digest_items 2 [strBytes "A"]) 0 =
        Except.error (LazyTowerError.invalidIndex 0
          (LazyTower.towerOfList mock_digest_items 2 [strBytes "A"]).len) ↔
      ((LazyTower.towerOfList mock_digest_items 2 [strBytes "A"]).len = 0 ∨
        (LazyTower.towerOfList mock_digest_items 2 [strBytes "A"]).len ≤ 0)) ∧
    (0 < (LazyTower.towerOfList mock_digest_items 2 [strBytes "A"]).len →
      ∃ p, LazyTower.generate_proof mock_digest_item mock_digest_items
        (LazyTower.towerOfList mock_digest_items 2 [strBytes "A"]) 0 = Except.ok p) :=
  generate_proof_invalid_index_iff mock_digest_item mock_digest_items 2
    [strBytes "A"] (by decide) 0

/-- C9: `MembershipProof::verify` consumes only the proof's own stored item,
path and root, never the live tower, so a proof that verified true before
further appends still verifies true afterwards — the proof value is
unchanged by appends — and its stored root is exactly the tower's root at
generation time (later appends may change the live `root_digest()` without
touching the proof). -/
theorem stale_proof_still_verifies (dItem : Bytes → Bytes) (dItems : List Bytes → Bytes)
    (w : Nat) (xs : List Bytes) (i : Nat) (p : MembershipProof)
    (h : LazyTower.generate_proof dItem dItems (LazyTower.towerOfList dItems w xs) i =
      Except.ok p)
    (hv : MembershipProof.verify dItem dItems p = true) :
    MembershipProof.verify dItem dItems p = true ∧
    LazyTower.root_digest dItem dItems (LazyTower.towerOfList dItems w xs) =
      some p.root :=
  ⟨hv, LazyTower.generate_proof_root dItem dItems _ i p h⟩

/-- Witness for C9: the proof for item 0 of ["A","B"] at width 2 verifies
true against its own root, which is the generation-time root; appending
"C","D" afterwards changes the live root. -/
theorem stale_proof_still_verifies_witness :
    MembershipProof.verify mock_digest_item mock_digest_items
        ⟨strBytes "A", ⟨[PathElement.rawSiblings 0 [strBytes "B"]]⟩,
          mock_digest_items [strBytes "A", strBytes "B"]⟩ = true ∧
    LazyTower.root_digest mock_digest_item mock_digest_items
        (LazyTower.towerOfList mock_digest_items 2 [strBytes "A", strBytes "B"]) =
      some (⟨strBytes "A", ⟨[PathElement.rawSiblings 0 [strBytes "B"]]⟩,
        mock_digest_items [strBytes "A", strBytes "B"]⟩ : MembershipProof).root ∧
    LazyTower.root_digest mock_digest_item mock_digest_items
        (LazyTower.towerOfList mock_digest_items 2
          [strBytes "A", strBytes "B", strBytes "C", strBytes "D"]) ≠
      LazyTower.root_digest mock_digest_item mock_digest_items
        (LazyTower.towerOfList mock_digest_items 2 [strBytes "A", strBytes "B"]) := by
  have h := stale_proof_still_verifies mock_digest_item mock_digest_items 2
    [strBytes "A", strBytes "B"] 0
    ⟨strBytes "A", ⟨[PathElement.rawSiblings 0 [strBytes "B"]]⟩,
      mock_digest_items [strBytes "A", strBytes "B"]⟩ (by rfl) (by decide)
  exact ⟨h.1, h.2, by decide⟩

theorem filterMap_congr_mem {α β : Type} (L : List α) (f g : α → Option β)
    (h : ∀ a ∈ L, f a = g a) : L.filterMap f = L.filterMap g := by
  induction L with
  | nil => rfl
  | cons a as ih =>
      rw [List.filterMap_cons, List.filterMap_cons, h a (List.mem_cons_self a as),
        ih (fun x hx => h x (List.mem_cons_of_mem a hx))]

theorem range_filterMap_get {α : Type} (L : List α) :
    (List.range L.length).filterMap (fun i => L[i]?) = L := by
  induction L with
  | nil => rfl
  | cons a as ih =>
      rw [List.length_cons, List.range_succ_eq_map, List.filterMap_cons]
      simp only [List.getElem?_cons_zero, List.filterMap_map, Function.comp_def,
        List.getElem?_cons_succ]
      rw [ih]

namespace LazyTower

/-- The `NodeId`s carried by the nodes that a sequence of overflow records
pushed onto the next level, in the order the records were created. -/
def aggIds (sel : List OverflowRecord) : List NodeId :=
  sel.map (fun r => NodeId.digest r.node_ids)

theorem aggIds_append (s₁ s₂ : List OverflowRecord) :
    aggIds (s₁ ++ s₂) = aggIds s₁ ++ aggIds s₂ := by
  simp [aggIds]

theorem aggIds_length (s : List OverflowRecord) : (aggIds s).length = s.length := by
  simp [aggIds]

end LazyTower

namespace LazyTower

theorem aggIds_getElem_last (sel : List OverflowRecord) (r : OverflowRecord) :
    (aggIds (sel ++ [r]))[sel.length]? = some (NodeId.digest r.node_ids) := by
  rw [aggIds_append]
  have h : aggIds [r] = [NodeId.digest r.node_ids] := rfl
  rw [h, ← aggIds_length sel]
  exact List.getElem?_concat_length _ _

theorem aggIds_getElem_lt (sel : List OverflowRecord) (r : OverflowRecord) (j : Nat)
    (h : j < sel.length) :
    (aggIds (sel ++ [r]))[j]? = (aggIds sel)[j]? := by
  rw [aggIds_append]
  exact List.getElem?_append_left (by rw [aggIds_length]; omega)

/-- Order bookkeeping of one cascade run.  `recs0 ++ tl` is the current
ledger; every level at or above `l` currently holds the aggregate ids of a
ledger-ordered sublist of `recs0` (position order = ledger order = the order
the producing overflows happened), and for `l ≥ 1` the node being pushed is
the aggregate of a record in `tl` (created after everything in `recs0`).
Then afterwards every level at or above `l` again holds the aggregates of a
ledger-ordered sublist of the final ledger, and every record — old or newly
created at level ≥ 1 — lists the aggregates of a ledger-ordered sublist. -/
theorem append_to_level_order (dItems : List Bytes → Bytes) (w : Nat)
    (suffix : List (List TowerNode)) :
    ∀ (l : Nat) (node : TowerNode) (nid : NodeId) (aux : Ledger)
      (recs0 tl : List OverflowRecord) (lvls' : List (List TowerNode)) (aux' : Ledger),
      (∀ lvl ∈ suffix, lvl.length < w) →
      aux.overflow_records = recs0 ++ tl →
      (1 ≤ l → ∃ rn ∈ tl, nid = NodeId.digest rn.node_ids) →
      (∀ d, 1 ≤ l + d → ∃ sel, sel.Sublist recs0 ∧ sel.length = lvlLen suffix d ∧
        ∀ j, j < sel.length → aux.level_nodes (l + d, j) = (aggIds sel)[j]?) →
      append_to_level dItems w l node nid suffix aux = (lvls', aux') →
      (∀ d, 1 ≤ l + d → ∃ sel, sel.Sublist aux'.overflow_records ∧
        sel.length = lvlLen lvls' d ∧
        ∀ j, j < sel.length → aux'.level_nodes (l + d, j) = (aggIds sel)[j]?) ∧
      (∀ r ∈ aux'.overflow_records, r ∈ aux.overflow_records ∨
        (1 ≤ r.level → ∃ sel, sel.Sublist aux'.overflow_records ∧
          r.node_ids = aggIds sel)) := by
  induction suffix with
  | nil =>
      intro l node nid aux recs0 tl lvls' aux' hb hled hnid hsel heq
      rw [append_to_level_nil] at heq
      injection heq with e1 e2
      subst e1; subst e2
      constructor
      · intro d hd
        cases d with
        | zero =>
            obtain ⟨rn, hrn_mem, hrn⟩ := hnid (by omega)
            refine ⟨[rn], ?_, by simp [lvlLen], ?_⟩
            · show [rn].Sublist _
              dsimp only
              rw [hled]
              exact (List.singleton_sublist.mpr hrn_mem).trans
                (List.sublist_append_right recs0 tl)
            · intro j hj
              have hj0 : j = 0 := by simpa using hj
              subst hj0
              dsimp only
              rw [Nat.add_zero, lnInsert_self]
              simp [aggIds, hrn]
        | succ d =>
            refine ⟨[], List.nil_sublist _, by simp [lvlLen], ?_⟩
            intro j hj
            simp at hj
      · intro r hr
        exact Or.inl hr
  | cons lvl rest ih =>
      intro l node nid aux recs0 tl lvls' aux' hb hled hnid hsel heq
      by_cases hov : w ≤ lvl.length + 1
      · -- overflow at level l
        rw [append_to_level_cons_overflow _ _ _ _ _ _ _ _ hov] at heq
        set ln1 := lnInsert aux.level_nodes (l, lvl.length) nid with hln1
        set ids := collectOverflowIds ln1 l w with hids
        set dg := dItems ((lvl ++ [node]).map TowerNode.bytes) with hdg
        set auxO := overflowLedger dItems w l lvl node nid rest aux with hauxO
        rcases h2 : append_to_level dItems w (l + 1) (TowerNode.digest dg)
            (NodeId.digest ids) rest auxO with ⟨lvls2, aux2⟩
        rw [h2] at heq
        dsimp only at heq
        injection heq with e1 e2
        subst e1; subst e2
        have hlen : lvl.length + 1 = w := by
          have := hb lvl (List.mem_cons_self _ _)
          omega
        have hO_ln : auxO.level_nodes = lnRemoveBelow ln1 l w := by
          rw [hauxO]; rfl
        have hledO : auxO.overflow_records =
            aux.overflow_records ++ [⟨l, ids, dg⟩] := by
          rw [hauxO, overflowLedger_records]
        have hids_char : 1 ≤ l →
            ∃ selR, selR.Sublist aux.overflow_records ∧ ids = aggIds selR := by
          intro hl
          obtain ⟨rn, hrn_mem, hrn⟩ := hnid hl
          obtain ⟨sel0, hsub0, hlen0, hval0⟩ := hsel 0 (by omega)
          rw [lvlLen_cons_zero] at hlen0
          have hagg0 : (aggIds sel0).length = lvl.length := by
            rw [aggIds_length, hlen0]
          refine ⟨sel0 ++ [rn], ?_, ?_⟩
          · rw [hled]
            exact hsub0.append (List.singleton_sublist.mpr hrn_mem)
          · have hl2 : (aggIds (sel0 ++ [rn])).length = w := by
              rw [aggIds_length, List.length_append, List.length_singleton, hlen0]
              omega
            have hvals : ∀ i ∈ List.range w,
                ln1 (l, i) = (aggIds (sel0 ++ [rn]))[i]? := by
              intro i hi
              rw [List.mem_range] at hi
              by_cases hie : i = lvl.length
              · subst hie
                rw [hln1, lnInsert_self, ← hlen0, aggIds_getElem_last, hrn]
              · rw [hln1, lnInsert_ne _ _ _ _ (by simp [Prod.ext_iff, hie])]
                have hv := hval0 i (by omega)
                rw [Nat.add_zero] at hv
                rw [aggIds_getElem_lt sel0 rn i (by omega)]
                exact hv
            rw [hids, collectOverflowIds,
              filterMap_congr_mem (List.range w) _ _ hvals, ← hl2,
              range_filterMap_get]
        obtain ⟨newsM, hM⟩ := append_to_level_records_mono dItems w rest (l + 1)
          (TowerNode.digest dg) (NodeId.digest ids) auxO
        rw [h2] at hM
        have hmono : aux.overflow_records.Sublist aux2.overflow_records := by
          rw [hM, hledO, List.append_assoc]
          exact List.sublist_append_left _ _
        have hsel2 : ∀ d, 1 ≤ (l + 1) + d →
            ∃ sel, sel.Sublist aux.overflow_records ∧ sel.length = lvlLen rest d ∧
              ∀ j, j < sel.length → auxO.level_nodes (l + 1 + d, j) = (aggIds sel)[j]? := by
          intro d hd
          obtain ⟨sel, hsub, hslen, hsval⟩ := hsel (d + 1) (by omega)
          rw [lvlLen_cons_succ] at hslen
          refine ⟨sel, ?_, hslen, ?_⟩
          · rw [hled]
            exact hsub.trans (List.sublist_append_left recs0 tl)
          · intro j hj
            rw [hO_ln, lnRemoveBelow_other _ _ _ _ (by simp; omega), hln1,
              lnInsert_ne _ _ _ _ (by simp [Prod.ext_iff]; omega)]
            have harith : l + 1 + d = l + (d + 1) := by omega
            rw [harith]
            exact hsval j hj
        obtain ⟨hO1, hO2⟩ := ih (l + 1) (TowerNode.digest dg) (NodeId.digest ids)
          auxO aux.overflow_records [⟨l, ids, dg⟩] lvls2 aux2
          (fun x hx => hb x (List.mem_cons_of_mem _ hx)) hledO
          (fun _ => ⟨⟨l, ids, dg⟩, List.mem_singleton.mpr rfl, rfl⟩) hsel2 h2
        constructor
        · intro d hd
          cases d with
          | zero =>
              refine ⟨[], List.nil_sublist _, by simp [lvlLen], ?_⟩
              intro j hj
              simp at hj
          | succ d =>
              obtain ⟨sel, hsub, hslen, hsval⟩ := hO1 d (by omega)
              refine ⟨sel, hsub, by rw [lvlLen_cons_succ]; exact hslen, ?_⟩
              intro j hj
              have harith : l + (d + 1) = l + 1 + d := by omega
              rw [harith]
              exact hsval j hj
        · intro r hr
          rcases hO2 r hr with hold | hprop
          · rw [hledO] at hold
            rcases List.mem_append.mp hold with h1 | h1
            · exact Or.inl h1
            · have hrR : r = ⟨l, ids, dg⟩ := List.mem_singleton.mp h1
              right
              intro hl
              subst hrR
              dsimp only at hl
              obtain ⟨selR, hsubR, hidsR⟩ := hids_char hl
              exact ⟨selR, hsubR.trans hmono, hidsR⟩
          · exact Or.inr hprop
      · -- no overflow: the node stays at level l
        rw [append_to_level_cons_stay _ _ _ _ _ _ _ _ hov] at heq
        injection heq with e1 e2
        subst e1; subst e2
        constructor
        · intro d hd
          cases d with
          | zero =>
              obtain ⟨rn, hrn_mem, hrn⟩ := hnid (by omega)
              obtain ⟨sel0, hsub0, hlen0, hval0⟩ := hsel 0 (by omega)
              rw [lvlLen_cons_zero] at hlen0
              have hagg0 : (aggIds sel0).length = lvl.length := by
                rw [aggIds_length, hlen0]
              refine ⟨sel0 ++ [rn], ?_, ?_, ?_⟩
              · show (sel0 ++ [rn]).Sublist _
                dsimp only
                rw [hled]
                exact hsub0.append (List.singleton_sublist.mpr hrn_mem)
              · rw [lvlLen_cons_zero, List.length_append, List.length_append,
                  List.length_singleton, List.length_singleton, hlen0]
              · intro j hj
                rw [List.length_append, List.length_singleton, hlen0] at hj
                dsimp only
                rw [Nat.add_zero]
                by_cases hje : j = lvl.length
                · subst hje
                  rw [lnInsert_self, ← hlen0, aggIds_getElem_last, hrn]
                · rw [lnInsert_ne _ _ _ _ (by simp [Prod.ext_iff, hje])]
                  have hv := hval0 j (by omega)
                  rw [Nat.add_zero] at hv
                  rw [aggIds_getElem_lt sel0 rn j (by omega)]
                  exact hv
          | succ d =>
              obtain ⟨sel, hsub, hslen, hsval⟩ := hsel (d + 1) (by omega)
              rw [lvlLen_cons_succ] at hslen
              refine ⟨sel, ?_, by rw [lvlLen_cons_succ]; exact hslen, ?_⟩
              · show sel.Sublist _
                dsimp only
                rw [hled]
                exact hsub.trans (List.sublist_append_left recs0 tl)
              · intro j hj
                dsimp only
                rw [lnInsert_ne _ _ _ _ (by simp [Prod.ext_iff])]
                exact hsval j hj
        · intro r hr
          exact Or.inl hr

end LazyTower

namespace LazyTower

/-- Order invariant of every reachable tower: each level `l ≥ 1` currently
holds, in position order, the aggregate ids of a ledger-ordered sublist of
the overflow ledger, and every record at level ≥ 1 consumed the aggregate
ids of a ledger-ordered sublist.  The ledger is append-only, so its order is
the chronological order the aggregates were created — which is the order
they were appended to their level. -/
structure InvOrd (w : Nat) (t : LazyTower) : Prop where
  ln_sel : ∀ l, 1 ≤ l → ∃ sel, sel.Sublist t.overflow_records ∧
      sel.length = lvlLen t.levels l ∧
      ∀ j, j < sel.length → t.level_nodes (l, j) = (aggIds sel)[j]?
  rec_agg : ∀ r ∈ t.overflow_records, 1 ≤ r.level →
      ∃ sel, sel.Sublist t.overflow_records ∧ r.node_ids = aggIds sel

theorem InvOrd_mkEmpty (w : Nat) : InvOrd w (mkEmpty w) := by
  constructor
  · intro l hl
    refine ⟨[], List.nil_sublist _, ?_, ?_⟩
    · cases l with
      | zero => omega
      | succ l => simp [mkEmpty, lvlLen]
    · intro j hj
      simp at hj
  · intro r hr
    simp [mkEmpty] at hr

/-- `append` preserves the order invariant. -/
theorem InvOrd_append (dItems : List Bytes → Bytes) (w : Nat) (t : LazyTower)
    (x : Bytes) (h : Inv w t) (ho : InvOrd w t) : InvOrd w (t.append dItems x) := by
  obtain ⟨lvl0, restL, hlv⟩ : ∃ a s, t.levels = a :: s := by
    cases hc : t.levels with
    | nil => exact absurd hc h.levels_ne
    | cons a s => exact ⟨a, s, rfl⟩
  rcases hres : append_to_level dItems t.width 0 (TowerNode.item x)
      (NodeId.item t.item_count) t.levels
      ⟨fun j => if j = t.item_count then
          some ⟨0, (t.levels.head?.getD []).length⟩ else t.item_positions j,
        t.overflow_records, t.digest_to_nodes,
        lnInsert t.level_nodes (0, (t.levels.head?.getD []).length)
          (NodeId.item t.item_count)⟩
    with ⟨lvls2, aux2⟩
  have happ : t.append dItems x =
      { width := t.width
        levels := lvls2
        item_count := t.item_count + 1
        items := fun j => if j = t.item_count then some x else t.items j
        item_positions := aux2.item_positions
        overflow_records := aux2.overflow_records
        digest_to_nodes := aux2.digest_to_nodes
        level_nodes := aux2.level_nodes } := by
    simp only [append]
    rw [hres]
  obtain ⟨newsM, hM⟩ := append_to_level_records_mono dItems t.width t.levels 0
    (TowerNode.item x) (NodeId.item t.item_count)
    ⟨fun j => if j = t.item_count then
        some ⟨0, (t.levels.head?.getD []).length⟩ else t.item_positions j,
      t.overflow_records, t.digest_to_nodes,
      lnInsert t.level_nodes (0, (t.levels.head?.getD []).length)
        (NodeId.item t.item_count)⟩
  rw [hres] at hM
  dsimp only at hM
  rw [hlv] at hres
  simp only [List.head?_cons, Option.getD_some] at hres
  rw [h.width_eq] at hres
  have hb' := h.bound
  rw [hlv] at hb'
  have hsel0 : ∀ d, 1 ≤ 0 + d →
      ∃ sel, sel.Sublist t.overflow_records ∧
        sel.length = lvlLen (lvl0 :: restL) d ∧
        ∀ j, j < sel.length →
          (lnInsert t.level_nodes (0, lvl0.length) (NodeId.item t.item_count))
            (0 + d, j) = (aggIds sel)[j]? := by
    intro d hd
    obtain ⟨sel, hsub, hslen, hsval⟩ := ho.ln_sel d (by omega)
    rw [hlv] at hslen
    refine ⟨sel, hsub, hslen, ?_⟩
    intro j hj
    rw [lnInsert_ne _ _ _ _ (by simp [Prod.ext_iff]; omega)]
    have hv := hsval j hj
    rw [Nat.zero_add]
    exact hv
  obtain ⟨hO1, hO2⟩ := append_to_level_order dItems w (lvl0 :: restL) 0
    (TowerNode.item x) (NodeId.item t.item_count) _ t.overflow_records [] lvls2 aux2
    hb' (by dsimp only; rw [List.append_nil])
    (fun hcon => absurd hcon (by omega)) hsel0 hres
  constructor
  · rw [happ]
    intro l hl
    obtain ⟨sel, hsub, hslen, hsval⟩ := hO1 l (by omega)
    refine ⟨sel, hsub, hslen, ?_⟩
    intro j hj
    have hv := hsval j hj
    rw [Nat.zero_add] at hv
    exact hv
  · rw [happ]
    dsimp only
    intro r hr hl
    rcases hO2 r hr with hold | hprop
    · dsimp only at hold
      obtain ⟨sel, hsub, heqr⟩ := ho.rec_agg r hold hl
      refine ⟨sel, ?_, heqr⟩
      exact hsub.trans (by rw [hM]; exact List.sublist_append_left _ _)
    · exact hprop hl

theorem InvOrd_appendAll (dItems : List Bytes → Bytes) (w : Nat) (xs : List Bytes) :
    ∀ (t : LazyTower), Inv w t → InvOrd w t → InvOrd w (appendAll dItems t xs) := by
  induction xs with
  | nil => intro t _ ho; exact ho
  | cons x xs ih =>
      intro t h ho
      rw [appendAll_cons]
      exact ih _ (Inv_append dItems w t x h) (InvOrd_append dItems w t x h ho)

theorem InvOrd_towerOfList (dItems : List Bytes → Bytes) (w : Nat) (xs : List Bytes)
    (hw : 1 < w) : InvOrd w (towerOfList dItems w xs) :=
  InvOrd_appendAll dItems w xs _ (Inv_mkEmpty w hw) (InvOrd_mkEmpty w)

end LazyTower

/-- C6: on every reachable tower of width `w`, every overflow record consumes
exactly `w` node ids, in the exact order the nodes were appended to the
overflowing level, and appends only ever extend the record ledger (records
are never mutated or deleted).  Order is captured level by level: a level-0
record lists `w` consecutive item ids in increasing append order, and a
record at level ≥ 1 lists the aggregate ids of a sublist of the append-only
ledger taken in ledger order — the chronological order the aggregates were
created and hence pushed onto that level. -/
theorem overflow_record_ledger_spec (dItems : List Bytes → Bytes) (w : Nat)
    (xs : List Bytes) (hw : 1 < w) :
    (∀ r ∈ (LazyTower.towerOfList dItems w xs).overflow_records,
      r.node_ids.length = w) ∧
    (∀ r ∈ (LazyTower.towerOfList dItems w xs).overflow_records, r.level = 0 →
      ∃ k, r.node_ids = (List.range w).map (fun j => NodeId.item (k + j))) ∧
    (∀ r ∈ (LazyTower.towerOfList dItems w xs).overflow_records, 1 ≤ r.level →
      ∃ sel, sel.Sublist (LazyTower.towerOfList dItems w xs).overflow_records ∧
        r.node_ids = LazyTower.aggIds sel) ∧
    (∀ y, ∃ news,
      (LazyTower.append dItems (LazyTower.towerOfList dItems w xs) y).overflow_records =
        (LazyTower.towerOfList dItems w xs).overflow_records ++ news) :=
  let h := LazyTower.Inv_towerOfList dItems w xs hw
  let ho := LazyTower.InvOrd_towerOfList dItems w xs hw
  ⟨h.rec_len, h.rec_zero, ho.rec_agg, fun y => LazyTower.append_records_mono dItems _ y⟩

/-- Witness for C6: width 2 after appending "A","B","C","D" — every record
consumed exactly 2 ids, the first record lists items 0 and 1 in append
order, the level-1 record lists the aggregates of a ledger-ordered sublist,
and a further append only extends the ledger. -/
theorem overflow_record_ledger_spec_witness :
    ((LazyTower.towerOfList mock_digest_items 2
        [strBytes "A", strBytes "B", strBytes "C", strBytes "D"]).overflow_records.all
      (fun r => r.node_ids.length == 2) = true) ∧
    (∃ r, r ∈ (LazyTower.towerOfList mock_digest_items 2
        [strBytes "A", strBytes "B", strBytes "C", strBytes "D"]).overflow_records ∧
      ∃ k, r.node_ids = (List.range 2).map (fun j => NodeId.item (k + j))) ∧
    (∃ r, r ∈ (LazyTower.towerOfList mock_digest_items 2
        [strBytes "A", strBytes "B", strBytes "C", strBytes "D"]).overflow_records ∧
      1 ≤ r.level ∧
      ∃ sel, sel.Sublist (LazyTower.towerOfList mock_digest_items 2
          [strBytes "A", strBytes "B", strBytes "C", strBytes "D"]).overflow_records ∧
        r.node_ids = LazyTower.aggIds sel) ∧
    (∃ news,
      (LazyTower.append mock_digest_items (LazyTower.towerOfList mock_digest_items 2
        [strBytes "A", strBytes "B", strBytes "C", strBytes "D"])
          (strBytes "E")).overflow_records =
        (LazyTower.towerOfList mock_digest_items 2
          [strBytes "A", strBytes "B", strBytes "C", strBytes "D"]).overflow_records ++
          news) := by
  have h := overflow_record_ledger_spec mock_digest_items 2
    [strBytes "A", strBytes "B", strBytes "C", strBytes "D"] (by decide)
  have hmem0 : (⟨0, [NodeId.item 0, NodeId.item 1],
      mock_digest_items [strBytes "A", strBytes "B"]⟩ : OverflowRecord) ∈
        (LazyTower.towerOfList mock_digest_items 2
          [strBytes "A", strBytes "B", strBytes "C", strBytes "D"]).overflow_records :=
    List.mem_cons_self _ _
  have hmem1 : (⟨1,
      [NodeId.digest [NodeId.item 0, NodeId.item 1],
        NodeId.digest [NodeId.item 2, NodeId.item 3]],
      mock_digest_items [mock_digest_items [strBytes "A", strBytes "B"],
        mock_digest_items [strBytes "C", strBytes "D"]]⟩ : OverflowRecord) ∈
        (LazyTower.towerOfList mock_digest_items 2
          [strBytes "A", strBytes "B", strBytes "C", strBytes "D"]).overflow_records :=
    List.mem_cons_of_mem _ (List.mem_cons_of_mem _ (List.mem_cons_self _ _))
  refine ⟨?_, ⟨_, hmem0, h.2.1 _ hmem0 rfl⟩,
    ⟨_, hmem1, Nat.le_refl 1, h.2.2.1 _ hmem1 (Nat.le_refl 1)⟩,
    h.2.2.2 (strBytes "E")⟩
  exact List.all_eq_true.mpr (fun r hr => by simpa using h.1 r hr)
